import Mathlib

/-!
Shallow embedding of `mips_core.py`: the word parser (`parse_word`), the
instruction decoder (`decode`) and the execution engine (`SimpleMIPS` with
`step` and `run_n`).  Python strings are modelled as `List Char`, Python's
unbounded integers as `Int` (or `Nat` where the source value is provably
nonnegative), Python lists as `List`, and the `dict` used for data memory as
an association list in insertion order.  Exceptions caught by the source are
modelled by `Option`.
-/

set_option maxRecDepth 4096

/-- Whitespace characters removed by Python's `str.strip()` (ASCII subset;
the exotic Unicode space characters are not relevant to any claim). -/
def isPySpace (c : Char) : Bool :=
  c == ' ' || c == '\t' || c == '\n' || c == '\x0d' || c == '\x0b' || c == '\x0c'

/-- Model of Python's `s.strip()` on the character list of `s`. -/
def pyStrip (cs : List Char) : List Char :=
  ((cs.dropWhile isPySpace).reverse.dropWhile isPySpace).reverse

/-- Value of one digit character for `int(s, base)`: `0`-`9`, `a`-`z`,
`A`-`Z`, accepted only when its value is below the base. -/
def digitVal (b : Nat) (c : Char) : Option Nat :=
  let v : Option Nat :=
    if '0' ≤ c ∧ c ≤ '9' then some (c.toNat - '0'.toNat)
    else if 'a' ≤ c ∧ c ≤ 'z' then some (c.toNat - 'a'.toNat + 10)
    else if 'A' ≤ c ∧ c ≤ 'Z' then some (c.toNat - 'A'.toNat + 10)
    else none
  match v with
  | some d => if d < b then some d else none
  | none => none

/-- Digit sequence after the first digit, as accepted by Python's
`int(s, base)`: an underscore may separate two digits but may not be
doubled or trailing. -/
def digitsRest (b : Nat) (acc : Nat) : List Char → Option Nat
  | [] => some acc
  | c :: cs =>
    if c = '_' then
      match cs with
      | [] => none
      | c2 :: cs2 =>
        match digitVal b c2 with
        | some d => digitsRest b (acc * b + d) cs2
        | none => none
    else
      match digitVal b c with
      | some d => digitsRest b (acc * b + d) cs
      | none => none

/-- Digit sequence for `int(s, base)`: nonempty and starting with a digit
(a leading underscore is rejected here; the one permitted directly after a
base prefix is handled in `pyIntMagnitude`). -/
def digitsStart (b : Nat) : List Char → Option Nat
  | [] => none
  | c :: cs =>
    match digitVal b c with
    | some d => digitsRest b d cs
    | none => none

/-- Prefix letter of the only bases `parse_word` uses: `0x` for 16, `0b` for 2. -/
def prefChar (b : Nat) : Char :=
  if b = 16 then 'x' else 'b'

/-- Magnitude part of `int(s, base)`: an optional case-insensitive base
prefix (`0x` / `0b`), optionally followed by a single underscore, then the
digit sequence. -/
def pyIntMagnitude (b : Nat) (cs : List Char) : Option Nat :=
  match cs with
  | '0' :: c :: rest =>
    if c == prefChar b || c == (prefChar b).toUpper then
      match rest with
      | '_' :: rest2 => digitsStart b rest2
      | _ => digitsStart b rest
    else digitsStart b cs
  | _ => digitsStart b cs

/-- Model of Python's `int(s, base)` on an already-stripped character list
(`parse_word` strips first, and `int` itself strips the same whitespace, so
the inner strip is a no-op): one optional sign, then the magnitude.  `none`
models the `ValueError` that the source catches. -/
def pyInt (b : Nat) (cs : List Char) : Option Int :=
  match cs with
  | '+' :: rest => (pyIntMagnitude b rest).map (fun n => (n : Int))
  | '-' :: rest => (pyIntMagnitude b rest).map (fun n => -(n : Int))
  | _ => (pyIntMagnitude b cs).map (fun n => (n : Int))

/-- Test for the `s.startswith('0x') or s.startswith('0X')` guard. -/
def startsHexPref (cs : List Char) : Bool :=
  match cs with
  | '0' :: 'x' :: _ => true
  | '0' :: 'X' :: _ => true
  | _ => false

/-- Model of `parse_word` (mips_core.py lines 25-36).  The surrounding
`try/except` returning `None` is the `Option` in `pyInt`. -/
def parse_word (s : String) : Option Int :=
  let t := pyStrip s.data
  if t.isEmpty then none
  else if startsHexPref t then pyInt 16 t
  else if t.length = 32 && t.all (fun c => c == '0' || c == '1') then pyInt 2 t
  else pyInt 16 t

/-- Symbolic mnemonics: the entries of `R_FUNCTS`, `I_OPCODES` and
`J_OPCODES` plus the two synthetic `unknown_r(..)` / `unknown_i(..)`
fallback strings, which carry the raw code. -/
inductive Mnemonic where
  | add | sub | and | or | slt
  | addi | lw | sw | beq | bne
  | j
  | unknown_r (code : Nat)
  | unknown_i (code : Nat)
  deriving DecidableEq, Repr

/-- Lookup `R_FUNCTS.get(funct, f'unknown_r(..)')` (mips_core.py lines 4-10, 47). -/
def rFunct (f : Nat) : Mnemonic :=
  if f = 0x20 then .add
  else if f = 0x22 then .sub
  else if f = 0x24 then .and
  else if f = 0x25 then .or
  else if f = 0x2A then .slt
  else .unknown_r f

/-- Lookup `I_OPCODES.get(opcode, f'unknown_i(..)')` (mips_core.py lines 11-17, 62). -/
def iOpcode (op : Nat) : Mnemonic :=
  if op = 0x08 then .addi
  else if op = 0x23 then .lw
  else if op = 0x2b then .sw
  else if op = 0x04 then .beq
  else if op = 0x05 then .bne
  else .unknown_i op

/-- The decoded-instruction dictionaries returned by `decode`, as a tagged
variant over the three shapes (keys `type`, `opcode`, `rs`, `rt`, `rd`,
`shamt`, `funct`, `address`, `imm`, `mnemonic`). -/
inductive Decoded where
  | rtype (opcode rs rt rd shamt funct : Nat) (mnemonic : Mnemonic)
  | itype (opcode rs rt : Nat) (imm : Int) (mnemonic : Mnemonic)
  | jtype (opcode address : Nat) (mnemonic : Mnemonic)
  deriving DecidableEq, Repr

/-- Model of `decode` (mips_core.py lines 39-63).  The test
`opcode in J_OPCODES` is `opcode = 2`, the only key of `J_OPCODES`. -/
def decode (instr : Nat) : Decoded :=
  let opcode := (instr >>> 26) &&& 0x3F
  if opcode = 0 then
    .rtype opcode ((instr >>> 21) &&& 0x1F) ((instr >>> 16) &&& 0x1F)
      ((instr >>> 11) &&& 0x1F) ((instr >>> 6) &&& 0x1F) (instr &&& 0x3F)
      (rFunct (instr &&& 0x3F))
  else if opcode = 2 then
    .jtype opcode (instr &&& 0x03FFFFFF) .j
  else
    let raw : Nat := instr &&& 0xFFFF
    let imm : Int := if raw &&& 0x8000 ≠ 0 then (raw : Int) - 0x10000 else (raw : Int)
    .itype opcode ((instr >>> 21) &&& 0x1F) ((instr >>> 16) &&& 0x1F) imm
      (iOpcode opcode)

/-- Python's `x & 0xFFFFFFFF` on an arbitrary (possibly negative) integer:
the nonnegative remainder modulo 2^32. -/
def mask32 (x : Int) : Nat :=
  (x.emod 4294967296).toNat

/-- Statuses of the result dictionaries produced by `step`. -/
inductive Status where
  | ok | halted | pc_out_of_range | unknown_j | unknown_type
  deriving DecidableEq, Repr

/-- Direction tag of a `mem_access` record. -/
inductive MemDir where
  | read | write
  deriving DecidableEq, Repr

/-- The `mem_access` sub-dictionary attached by `lw` / `sw`. -/
structure MemAccess where
  dir : MemDir
  addr : Int
  value : Nat
  deriving DecidableEq, Repr

/-- The result dictionary of one `step` call; keys absent from a given
status are `none`. -/
structure StepRes where
  status : Status
  pc : Option Int
  instr : Option Nat
  decoded : Option Decoded
  mem_access : Option MemAccess
  step : Option Nat
  regs_snapshot : Option (List Nat)
  deriving DecidableEq, Repr

/-- The machine state owned by class `SimpleMIPS` (mips_core.py lines 74-82).
`mem` is the `dict` in insertion order. -/
structure SimpleMIPS where
  regs : List Nat
  mem : List (Int × Nat)
  pc : Int
  base : Int
  instrs : List Nat
  step_count : Nat
  halted : Bool
  deriving DecidableEq, Repr

/-- The conventional default base (mips_core.py line 22). -/
def DEFAULT_BASE_PC : Int := 0x00400000

/-- Model of `SimpleMIPS.__init__` (mips_core.py lines 75-82). -/
def SimpleMIPS.init (instr_words : List Nat) (base_pc : Int) : SimpleMIPS :=
  { regs := List.replicate 32 0, mem := [], pc := base_pc, base := base_pc,
    instrs := instr_words, step_count := 0, halted := false }

/-- Register read `self.regs[i]`; `decode` only produces indices below 32,
so the Python indexing never faults (theorem for C8). -/
def SimpleMIPS.reg (s : SimpleMIPS) (i : Nat) : Nat :=
  s.regs.getD i 0

/-- Read `self.mem.get(addr, 0)`. -/
def memGet (m : List (Int × Nat)) (a : Int) : Nat :=
  match m.find? (fun p => p.1 == a) with
  | some p => p.2
  | none => 0

/-- Write `self.mem[addr] = v`: replace in place if the key exists, else
append (Python dicts keep insertion order). -/
def memSet (m : List (Int × Nat)) (a : Int) (v : Nat) : List (Int × Nat) :=
  if m.any (fun p => p.1 == a) then
    m.map (fun p => if p.1 == a then (a, v) else p)
  else m ++ [(a, v)]

/-- Model of `SimpleMIPS.fetch_instr_at_pc` (mips_core.py lines 84-88):
`idx = (pc - self.base) // 4` is Python floor division, hence `Int.fdiv`.
The bounds check precedes the list access, so `getD` is exact. -/
def SimpleMIPS.fetch_instr_at_pc (s : SimpleMIPS) (pc : Int) : Option Nat :=
  let idx := (pc - s.base).fdiv 4
  if idx < 0 ∨ (s.instrs.length : Int) ≤ idx then none
  else some (s.instrs.getD idx.toNat 0)

/-- Jump target (mips_core.py line 143).  For any integer `pc`, Python's
`pc & 0xF0000000` keeps exactly bits 28-31 of the two's-complement value,
which coincide with bits 28-31 of `pc mod 2^32`. -/
def jumpTarget (pc : Int) (addressField : Nat) : Int :=
  (((mask32 pc &&& 0xF0000000) ||| ((addressField <<< 2) &&& 0x0FFFFFFF) : Nat) : Int)

/-- Shared epilogue of every non-terminal `step` branch (mips_core.py lines
152-158): force register 0 to zero, bump the step counter, and build the
`ok` action record (whose `pc` key holds the pre-step pc, captured at line
98, and whose `regs_snapshot` is a copy of the updated register file). -/
def stepEpilogue (s : SimpleMIPS) (instr : Nat) (dec : Decoded)
    (ma : Option MemAccess) (regs1 : List Nat) (mem1 : List (Int × Nat))
    (pc1 : Int) : StepRes × SimpleMIPS :=
  let regs2 := regs1.set 0 0
  let s2 : SimpleMIPS :=
    { regs := regs2, mem := mem1, pc := pc1, base := s.base,
      instrs := s.instrs, step_count := s.step_count + 1, halted := s.halted }
  (⟨.ok, some s.pc, some instr, some dec, ma, some s2.step_count, some regs2⟩, s2)

/-- Decode-and-execute phase of `SimpleMIPS.step` (mips_core.py lines
97-158), given the fetched word.  Python's `imm << 2` on a possibly
negative `imm` is `imm * 4`.  The defensive `else` for a fourth
instruction format (lines 148-150, status `unknown_type`) has no
inhabitant over the exact three-variant `Decoded` type and therefore no
branch here. -/
def stepExec (s : SimpleMIPS) (instr : Nat) : StepRes × SimpleMIPS :=
  match decode instr with
      | .rtype op rs rt rd sh f m =>
        let regs1 :=
          match m with
          | .add => s.regs.set rd ((s.reg rs + s.reg rt) &&& 0xFFFFFFFF)
          | .sub => s.regs.set rd (mask32 ((s.reg rs : Int) - (s.reg rt : Int)))
          | .and => s.regs.set rd (s.reg rs &&& s.reg rt)
          | .or => s.regs.set rd (s.reg rs ||| s.reg rt)
          | .slt => s.regs.set rd
              (if s.reg rs &&& 0xFFFFFFFF < s.reg rt &&& 0xFFFFFFFF then 1 else 0)
          | _ => s.regs
        stepEpilogue s instr (.rtype op rs rt rd sh f m) none regs1 s.mem (s.pc + 4)
      | .itype op rs rt imm m =>
        match m with
        | .addi =>
          stepEpilogue s instr (.itype op rs rt imm .addi) none
            (s.regs.set rt (mask32 ((s.reg rs : Int) + imm))) s.mem (s.pc + 4)
        | .lw =>
          let addr : Int := (s.reg rs : Int) + imm
          let word := memGet s.mem addr
          stepEpilogue s instr (.itype op rs rt imm .lw)
            (some ⟨.read, addr, word⟩) (s.regs.set rt word) s.mem (s.pc + 4)
        | .sw =>
          let addr : Int := (s.reg rs : Int) + imm
          let v := s.reg rt &&& 0xFFFFFFFF
          stepEpilogue s instr (.itype op rs rt imm .sw)
            (some ⟨.write, addr, v⟩) s.regs (memSet s.mem addr v) (s.pc + 4)
        | .beq =>
          stepEpilogue s instr (.itype op rs rt imm .beq) none s.regs s.mem
            (if s.reg rs = s.reg rt then s.pc + 4 + imm * 4 else s.pc + 4)
        | .bne =>
          stepEpilogue s instr (.itype op rs rt imm .bne) none s.regs s.mem
            (if s.reg rs ≠ s.reg rt then s.pc + 4 + imm * 4 else s.pc + 4)
        | m' =>
          stepEpilogue s instr (.itype op rs rt imm m') none s.regs s.mem (s.pc + 4)
      | .jtype op a m =>
        match m with
        | .j =>
          stepEpilogue s instr (.jtype op a .j) none s.regs s.mem (jumpTarget s.pc a)
        | m' =>
          (⟨.unknown_j, none, none, some (.jtype op a m'), none, none, none⟩,
            { s with halted := true })

/-- Model of `SimpleMIPS.step` (mips_core.py lines 90-158): the halted
check, the fetch with its terminal `pc_out_of_range` outcome, then the
decode-and-execute phase `stepExec`. -/
def SimpleMIPS.step (s : SimpleMIPS) : StepRes × SimpleMIPS :=
  if s.halted then (⟨.halted, none, none, none, none, none, none⟩, s)
  else
    match s.fetch_instr_at_pc s.pc with
    | none =>
      (⟨.pc_out_of_range, some s.pc, none, none, none, none, none⟩,
        { s with halted := true })
    | some instr => stepExec s instr

/-- Model of `SimpleMIPS.run_n` (mips_core.py lines 160-166): up to `n`
iterations, stopping before a step whenever the halted flag is observed. -/
def SimpleMIPS.run_n (s : SimpleMIPS) : Nat → List StepRes × SimpleMIPS
  | 0 => ([], s)
  | Nat.succ n =>
    if s.halted then ([], s)
    else
      let p := s.step
      let q := p.2.run_n n
      (p.1 :: q.1, q.2)

/-- States reachable from some constructed machine by stepping. -/
inductive Reachable : SimpleMIPS → Prop where
  | init (ws : List Nat) (b : Int) : Reachable (SimpleMIPS.init ws b)
  | step (s : SimpleMIPS) : Reachable s → Reachable (SimpleMIPS.step s).2

/-! Auxiliary lemmas about the state components touched by `stepEpilogue`. -/

@[simp] theorem stepEpilogue_fst_status (s instr dec ma regs1 mem1 pc1) :
    (stepEpilogue s instr dec ma regs1 mem1 pc1).1.status = .ok := rfl

@[simp] theorem stepEpilogue_snd_regs (s instr dec ma regs1 mem1 pc1) :
    (stepEpilogue s instr dec ma regs1 mem1 pc1).2.regs = regs1.set 0 0 := rfl

@[simp] theorem stepEpilogue_snd_mem (s instr dec ma regs1 mem1 pc1) :
    (stepEpilogue s instr dec ma regs1 mem1 pc1).2.mem = mem1 := rfl

@[simp] theorem stepEpilogue_snd_pc (s instr dec ma regs1 mem1 pc1) :
    (stepEpilogue s instr dec ma regs1 mem1 pc1).2.pc = pc1 := rfl

@[simp] theorem stepEpilogue_snd_base (s instr dec ma regs1 mem1 pc1) :
    (stepEpilogue s instr dec ma regs1 mem1 pc1).2.base = s.base := rfl

@[simp] theorem stepEpilogue_snd_instrs (s instr dec ma regs1 mem1 pc1) :
    (stepEpilogue s instr dec ma regs1 mem1 pc1).2.instrs = s.instrs := rfl

@[simp] theorem stepEpilogue_snd_halted (s instr dec ma regs1 mem1 pc1) :
    (stepEpilogue s instr dec ma regs1 mem1 pc1).2.halted = s.halted := rfl

@[simp] theorem stepEpilogue_snd_count (s instr dec ma regs1 mem1 pc1) :
    (stepEpilogue s instr dec ma regs1 mem1 pc1).2.step_count = s.step_count + 1 := rfl

/-- The state invariant maintained by the engine: a 32-slot register file,
register 0 reading as 0, and every register and memory value below 2^32. -/
def Good (s : SimpleMIPS) : Prop :=
  s.regs.length = 32 ∧ s.regs.getD 0 0 = 0 ∧
    (∀ x ∈ s.regs, x < 4294967296) ∧ (∀ p ∈ s.mem, p.2 < 4294967296)

theorem getD_lt_of_forall {l : List Nat} {B : Nat} (h : ∀ x ∈ l, x < B)
    (hB : 0 < B) (i : Nat) : l.getD i 0 < B := by
  rcases Nat.lt_or_ge i l.length with hi | hi
  · rw [List.getD_eq_getElem l 0 hi]
    exact h _ (List.getElem_mem hi)
  · rw [List.getD_eq_default l 0 hi]
    exact hB

theorem forall_lt_set {l : List Nat} {B v : Nat} (h : ∀ x ∈ l, x < B)
    (hv : v < B) (i : Nat) : ∀ x ∈ l.set i v, x < B := by
  intro x hx
  rcases List.mem_or_eq_of_mem_set hx with hx' | rfl
  · exact h x hx'
  · exact hv

theorem set_zero_getD {l : List Nat} (h : l ≠ []) : (l.set 0 0).getD 0 0 = 0 := by
  cases l with
  | nil => exact absurd rfl h
  | cons a t => rfl

theorem set_zero_of_getD {l : List Nat} (h0 : l.getD 0 0 = 0) (h : l ≠ []) :
    l.set 0 0 = l := by
  cases l with
  | nil => exact absurd rfl h
  | cons a t =>
    simp only [List.getD, List.get?, Option.getD_some] at h0
    simp [List.set, h0]

theorem reg_lt {s : SimpleMIPS} (h : ∀ x ∈ s.regs, x < 4294967296) (i : Nat) :
    s.reg i < 4294967296 :=
  getD_lt_of_forall h (by norm_num) i

theorem mask32_lt (x : Int) : mask32 x < 4294967296 := by
  unfold mask32
  have h1 : 0 ≤ x.emod 4294967296 := Int.emod_nonneg x (by norm_num)
  have h2 : x.emod 4294967296 < 4294967296 := Int.emod_lt_of_pos x (by norm_num)
  omega

theorem and_ffffffff_lt (a : Nat) : a &&& 0xFFFFFFFF < 4294967296 :=
  lt_of_le_of_lt Nat.and_le_right (by norm_num)

theorem lor_lt {a b : Nat} (ha : a < 4294967296) (hb : b < 4294967296) :
    a ||| b < 4294967296 := by
  have h : (4294967296 : Nat) = 2 ^ 32 := by norm_num
  rw [h] at ha hb ⊢
  exact Nat.or_lt_two_pow ha hb

theorem memGet_lt {m : List (Int × Nat)} (h : ∀ p ∈ m, p.2 < 4294967296)
    (a : Int) : memGet m a < 4294967296 := by
  unfold memGet
  cases hf : m.find? (fun p => p.1 == a) with
  | none => norm_num
  | some p => exact h p (List.mem_of_find?_eq_some hf)

theorem memSet_forall {m : List (Int × Nat)} {v : Nat}
    (h : ∀ p ∈ m, p.2 < 4294967296) (hv : v < 4294967296) (a : Int) :
    ∀ p ∈ memSet m a v, p.2 < 4294967296 := by
  intro p hp
  unfold memSet at hp
  split at hp
  · obtain ⟨q, hq, he⟩ := List.mem_map.1 hp
    by_cases hqa : (q.1 == a) = true
    · rw [if_pos hqa] at he
      rw [← he]
      exact hv
    · rw [if_neg hqa] at he
      exact he ▸ h q hq
  · rcases List.mem_append.1 hp with h1 | h1
    · exact h p h1
    · simp only [List.mem_singleton] at h1
      rw [h1]
      exact hv

theorem good_epilogue {s : SimpleMIPS} {instr : Nat} {dec : Decoded}
    {ma : Option MemAccess} {regs1 : List Nat} {mem1 : List (Int × Nat)}
    {pc1 : Int} (h1 : regs1.length = 32) (h2 : ∀ x ∈ regs1, x < 4294967296)
    (h3 : ∀ p ∈ mem1, p.2 < 4294967296) :
    Good (stepEpilogue s instr dec ma regs1 mem1 pc1).2 := by
  refine ⟨by simpa using h1, ?_, ?_, h3⟩
  · apply set_zero_getD
    intro he
    rw [he] at h1
    simp at h1
  · exact forall_lt_set h2 (by norm_num) 0

theorem good_exec {s : SimpleMIPS} (instr : Nat) (h : Good s) :
    Good (stepExec s instr).2 := by
  obtain ⟨hlen, hz, hregs, hmem⟩ := h
  unfold stepExec
  rcases hdec : decode instr with ⟨op, rs, rt, rd, sh, f, m⟩ | ⟨op, rs, rt, imm, m⟩ | ⟨op, a, m⟩
  · cases m
    case add =>
      exact good_epilogue (by simp [hlen])
        (forall_lt_set hregs (and_ffffffff_lt _) rd) hmem
    case sub =>
      exact good_epilogue (by simp [hlen])
        (forall_lt_set hregs (mask32_lt _) rd) hmem
    case and =>
      exact good_epilogue (by simp [hlen])
        (forall_lt_set hregs (lt_of_le_of_lt Nat.and_le_left (reg_lt hregs rs)) rd) hmem
    case or =>
      exact good_epilogue (by simp [hlen])
        (forall_lt_set hregs (lor_lt (reg_lt hregs rs) (reg_lt hregs rt)) rd) hmem
    case slt =>
      exact good_epilogue (by simp [hlen])
        (forall_lt_set hregs (by split <;> norm_num) rd) hmem
    all_goals exact good_epilogue hlen hregs hmem
  · cases m
    case addi =>
      exact good_epilogue (by simp [hlen])
        (forall_lt_set hregs (mask32_lt _) rt) hmem
    case lw =>
      exact good_epilogue (by simp [hlen])
        (forall_lt_set hregs (memGet_lt hmem _) rt) hmem
    case sw =>
      exact good_epilogue hlen hregs (memSet_forall hmem (and_ffffffff_lt _) _)
    all_goals exact good_epilogue hlen hregs hmem
  · cases m
    case j => exact good_epilogue hlen hregs hmem
    all_goals exact ⟨hlen, hz, hregs, hmem⟩

theorem good_step {s : SimpleMIPS} (h : Good s) : Good (SimpleMIPS.step s).2 := by
  unfold SimpleMIPS.step
  split
  · exact h
  · split
    · exact ⟨h.1, h.2.1, h.2.2.1, h.2.2.2⟩
    · exact good_exec _ h

theorem good_init (ws : List Nat) (b : Int) : Good (SimpleMIPS.init ws b) := by
  refine ⟨by simp [SimpleMIPS.init], rfl, ?_, by simp [SimpleMIPS.init]⟩
  intro x hx
  simp only [SimpleMIPS.init] at hx
  rw [List.eq_of_mem_replicate hx]
  norm_num

theorem reachable_good {s : SimpleMIPS} (h : Reachable s) : Good s := by
  induction h with
  | init ws b => exact good_init ws b
  | step s hs ih => exact good_step ih

theorem decode_jtype_mnemonic {w o a : Nat} {m : Mnemonic}
    (h : decode w = .jtype o a m) : m = .j := by
  simp only [decode] at h
  split at h
  · exact Decoded.noConfusion h
  · split at h
    · injection h with h1 h2 h3
      exact h3.symm
    · exact Decoded.noConfusion h

theorem step_halted_eq {s : SimpleMIPS} (h : s.halted = true) :
    SimpleMIPS.step s = (⟨.halted, none, none, none, none, none, none⟩, s) := by
  unfold SimpleMIPS.step
  rw [h]
  rfl

theorem step_oor_eq {s : SimpleMIPS} (h1 : s.halted = false)
    (h2 : s.fetch_instr_at_pc s.pc = none) :
    SimpleMIPS.step s =
      (⟨.pc_out_of_range, some s.pc, none, none, none, none, none⟩,
        { s with halted := true }) := by
  unfold SimpleMIPS.step
  rw [h1, h2]
  rfl

theorem step_exec_eq {s : SimpleMIPS} {w : Nat} (hh : s.halted = false)
    (hf : s.fetch_instr_at_pc s.pc = some w) :
    SimpleMIPS.step s = stepExec s w := by
  unfold SimpleMIPS.step
  rw [hh, hf]
  rfl

theorem stepExec_ok (s : SimpleMIPS) (instr : Nat) :
    (stepExec s instr).1.status = .ok ∧ (stepExec s instr).2.halted = s.halted := by
  unfold stepExec
  rcases hdec : decode instr with ⟨op, rs, rt, rd, sh, f, m⟩ | ⟨op, rs, rt, imm, m⟩ | ⟨op, a, m⟩
  · exact ⟨rfl, rfl⟩
  · cases m <;> exact ⟨rfl, rfl⟩
  · cases m
    case j => exact ⟨rfl, rfl⟩
    all_goals exact Mnemonic.noConfusion (decode_jtype_mnemonic hdec)

theorem step_ok_cases {s : SimpleMIPS} (h : s.halted = false) :
    ((SimpleMIPS.step s).1.status = .ok ∧ (SimpleMIPS.step s).2.halted = false) ∨
    ((SimpleMIPS.step s).1.status = .pc_out_of_range ∧
      (SimpleMIPS.step s).2.halted = true) := by
  rcases hf : s.fetch_instr_at_pc s.pc with _ | w
  · right
    rw [step_oor_eq h hf]
    exact ⟨rfl, rfl⟩
  · left
    rw [step_exec_eq h hf]
    exact ⟨(stepExec_ok s w).1, (stepExec_ok s w).2.trans h⟩

theorem run_n_halted {s : SimpleMIPS} (h : s.halted = true) (n : Nat) :
    s.run_n n = ([], s) := by
  cases n with
  | zero => rfl
  | succ n => simp [SimpleMIPS.run_n, h]

theorem run_n_succ_not_halted {s : SimpleMIPS} (h : s.halted = false) (n : Nat) :
    s.run_n (n + 1) =
      ((SimpleMIPS.step s).1 :: ((SimpleMIPS.step s).2.run_n n).1,
        ((SimpleMIPS.step s).2.run_n n).2) := by
  conv_lhs => rw [SimpleMIPS.run_n]
  rw [h]
  rfl

theorem fetch_at (s : SimpleMIPS) (k : Nat) (h : s.pc = s.base + 4 * k) :
    s.fetch_instr_at_pc s.pc =
      if k < s.instrs.length then some (s.instrs.getD k 0) else none := by
  unfold SimpleMIPS.fetch_instr_at_pc
  have h4 : s.pc - s.base = 4 * (k : Int) := by
    rw [h]
    ring
  rw [h4, Int.mul_fdiv_cancel_left _ (by norm_num)]
  by_cases hk : k < s.instrs.length
  · rw [if_pos hk, if_neg (by push_neg; omega)]
    simp
  · rw [if_neg hk, if_pos (by omega)]

/-- Instruction words whose execution is a plain `pc + 4` advance: neither
jump format nor a branch mnemonic. -/
def straightlineB (w : Nat) : Bool :=
  match decode w with
  | .rtype _ _ _ _ _ _ _ => true
  | .itype _ _ _ _ m => !(m == .beq || m == .bne)
  | .jtype _ _ _ => false

theorem stepExec_straight (s : SimpleMIPS) {w : Nat}
    (hw : straightlineB w = true) :
    (stepExec s w).1.status = .ok ∧
    (stepExec s w).2.pc = s.pc + 4 ∧
    (stepExec s w).2.halted = s.halted ∧
    (stepExec s w).2.base = s.base ∧
    (stepExec s w).2.instrs = s.instrs := by
  unfold stepExec
  unfold straightlineB at hw
  rcases hdec : decode w with ⟨op, rs, rt, rd, sh, f, m⟩ | ⟨op, rs, rt, imm, m⟩ | ⟨op, a, m⟩
  · exact ⟨rfl, rfl, rfl, rfl, rfl⟩
  · rw [hdec] at hw
    cases m
    case beq => simp at hw
    case bne => simp at hw
    all_goals exact ⟨rfl, rfl, rfl, rfl, rfl⟩
  · rw [hdec] at hw
    simp at hw

theorem step_straight {s : SimpleMIPS} {w : Nat} (hh : s.halted = false)
    (hf : s.fetch_instr_at_pc s.pc = some w) (hw : straightlineB w = true) :
    (SimpleMIPS.step s).1.status = .ok ∧
    (SimpleMIPS.step s).2.pc = s.pc + 4 ∧
    (SimpleMIPS.step s).2.halted = false ∧
    (SimpleMIPS.step s).2.base = s.base ∧
    (SimpleMIPS.step s).2.instrs = s.instrs := by
  rw [step_exec_eq hh hf]
  obtain ⟨h1, h2, h3, h4, h5⟩ := stepExec_straight s hw
  exact ⟨h1, h2, h3.trans hh, h4, h5⟩

theorem run_straight (n : Nat) : ∀ (k : Nat) (s : SimpleMIPS),
    s.halted = false →
    (∀ w ∈ s.instrs, straightlineB w = true) →
    s.pc = s.base + 4 * k → k ≤ s.instrs.length → s.instrs.length - k < n →
    ((s.run_n n).1.map (fun r => r.status)) =
      List.replicate (s.instrs.length - k) Status.ok ++ [Status.pc_out_of_range] := by
  induction n with
  | zero =>
    intro k s _ _ _ _ h5
    omega
  | succ n ih =>
    intro k s hh hws hpc hk hlen
    rw [run_n_succ_not_halted hh]
    by_cases hkL : k < s.instrs.length
    · have hf := fetch_at s k hpc
      rw [if_pos hkL] at hf
      have hwmem : s.instrs.getD k 0 ∈ s.instrs := by
        rw [List.getD_eq_getElem s.instrs 0 hkL]
        exact List.getElem_mem hkL
      obtain ⟨h1, h2, h3, h4, h5⟩ := step_straight hh hf (hws _ hwmem)
      have hrec := ih (k + 1) (SimpleMIPS.step s).2 h3
        (by rw [h5]; exact hws)
        (by rw [h2, h4, hpc]; push_cast; ring)
        (by rw [h5]; omega) (by rw [h5]; omega)
      rw [h5] at hrec
      simp only [List.map_cons, h1, hrec]
      rw [show s.instrs.length - k = (s.instrs.length - (k + 1)) + 1 from by omega,
        List.replicate_succ]
      simp
    · have hkeq : k = s.instrs.length := by omega
      have hf := fetch_at s k hpc
      rw [if_neg hkL] at hf
      rw [step_oor_eq hh hf]
      simp [run_n_halted, hkeq]

/-- C1 counterexample: executing the jump word 0x08000010 (decoded address
field 0x00000010) at pc 0x00400000 sets the next pc to 0x00000040, not to
the claimed 0x00400040 — 0x00400000 AND 0xF0000000 is 0, so no bit of the
old pc survives. -/
theorem C1_jump_example_cex :
    (SimpleMIPS.step (SimpleMIPS.init [0x08000010] 0x00400000)).2.pc = 0x40 ∧
    (SimpleMIPS.step (SimpleMIPS.init [0x08000010] 0x00400000)).2.pc ≠ 0x00400040 := by
  decide

/-- C1 (amended): executing the recognized jump instruction when the pc is
0x00400000 and the decoded 26-bit address field is 0x00000010 returns status
ok and sets the next pc to target = (pc AND 0xF0000000) OR ((address << 2)
AND 0x0FFFFFFF) = 0x00000040. -/
theorem C1_jump_example :
    (SimpleMIPS.step (SimpleMIPS.init [0x08000010] 0x00400000)).1.status = .ok ∧
    (SimpleMIPS.step (SimpleMIPS.init [0x08000010] 0x00400000)).2.pc =
      jumpTarget 0x00400000 0x00000010 ∧
    jumpTarget 0x00400000 0x00000010 = 0x00000040 := by
  decide

/-- C2 counterexample: the word parser is not limited to [0, 2^32): the
nine-digit hex text "100000000" parses to 2^32 itself. -/
theorem C2_parse_word_cex :
    parse_word "100000000" = some 4294967296 ∧ ¬ (4294967296 : Int) < 2 ^ 32 := by
  constructor
  · decide
  · norm_num

/-- C2 (amended): the word parser returns an integer (not necessarily in
[0, 2^32)) or no value, and blank or whitespace-only input yields no
value; parse failures surface as the absent value, never as an error. -/
theorem C2_parse_word (s : String) :
    pyStrip s.data = [] → parse_word s = none := by
  intro h
  simp [parse_word, h]

/-- C2 witness: the whitespace-only line "  " parses to no value. -/
theorem C2_parse_word_witness : parse_word "  " = none :=
  C2_parse_word "  " (by decide)

/-- C3 counterexample: a single always-taken backward branch (beq $0, $0,
-1, word 0x1000FFFF, so L = 1) loops in place: run(L+5) = run(6) returns
six ok results and never a pc-out-of-range result. -/
theorem C3_run_termination_cex :
    ((SimpleMIPS.init [0x1000FFFF] 0x00400000).run_n 6).1.map (fun r => r.status) =
      List.replicate 6 Status.ok ∧
    ((SimpleMIPS.init [0x1000FFFF] 0x00400000).run_n 6).1.map (fun r => r.status) ≠
      List.replicate 1 Status.ok ++ [Status.pc_out_of_range] := by
  decide

/-- C3 (amended): for every list of straight-line instruction words (no
jump-format word and no branch mnemonic, so every executed step advances
the pc by 4) and every base address, run(L+5) returns exactly L ok results
followed by exactly one pc-out-of-range result and nothing else. -/
theorem C3_run_termination (ws : List Nat) (b : Int)
    (hws : ∀ w ∈ ws, straightlineB w = true) :
    ((SimpleMIPS.init ws b).run_n (ws.length + 5)).1.map (fun r => r.status) =
      List.replicate ws.length Status.ok ++ [Status.pc_out_of_range] := by
  have h := run_straight (ws.length + 5) 0 (SimpleMIPS.init ws b) rfl hws
    (by simp [SimpleMIPS.init]) (by simp [SimpleMIPS.init])
    (by simp [SimpleMIPS.init])
  simpa [SimpleMIPS.init] using h

/-- C3 witness: two nop-like words (0x00000000, unrecognized R funct) with
the default base run for 2 ok steps and one pc-out-of-range step. -/
theorem C3_run_termination_witness :
    ((SimpleMIPS.init [0, 0] 0x00400000).run_n 7).1.map (fun r => r.status) =
      List.replicate 2 Status.ok ++ [Status.pc_out_of_range] :=
  C3_run_termination [0, 0] 0x00400000 (by decide)

/-- C4: from every reachable machine state, after any step() call register
0 reads as 0 — including steps whose decoded destination is register 0,
whose write is overwritten by the epilogue. -/
theorem C4_reg_zero (s : SimpleMIPS) (h : Reachable s) :
    (SimpleMIPS.step s).2.regs.getD 0 0 = 0 :=
  (reachable_good (Reachable.step s h)).2.1

/-- C4 witness: the instruction add $0, $1, $1 (word 0x00210020) names
register 0 as destination, and register 0 still reads 0 after the step. -/
theorem C4_reg_zero_witness :
    (SimpleMIPS.step (SimpleMIPS.init [0x00210020] 0x00400000)).2.regs.getD 0 0 = 0 :=
  C4_reg_zero _ (Reachable.init [0x00210020] 0x00400000)

/-- C5: after every step from a reachable state all register and memory
values lie below 2^32, and a register-format add of register values
0xFFFFFFFF and 1 writes 0x00000000 to the destination register. -/
theorem C5_wraparound :
    (∀ s : SimpleMIPS, Reachable s →
      (∀ x ∈ (SimpleMIPS.step s).2.regs, x < 2 ^ 32) ∧
      (∀ p ∈ (SimpleMIPS.step s).2.mem, p.2 < 2 ^ 32)) ∧
    (SimpleMIPS.step
        ⟨0 :: 0xFFFFFFFF :: 1 :: List.replicate 29 0, [], 0x00400000,
          0x00400000, [0x00221820], 0, false⟩).2.regs.getD 3 0 = 0x00000000 := by
  constructor
  · intro s h
    have hg := reachable_good (Reachable.step s h)
    have h32 : (2 : Nat) ^ 32 = 4294967296 := by norm_num
    rw [h32]
    exact ⟨hg.2.2.1, hg.2.2.2⟩
  · decide

/-- C5 witness: a store (sw $0, 0($0), word 0xAC000000) leaves every
register and the stored memory cell below 2^32. -/
theorem C5_wraparound_witness :
    (SimpleMIPS.step (SimpleMIPS.init [0xAC000000] 0x00400000)).2.regs.getD 5 0 < 2 ^ 32 ∧
    (((0 : Int), (0 : Nat)) : Int × Nat).2 < 2 ^ 32 :=
  ⟨(C5_wraparound.1 _ (Reachable.init [0xAC000000] 0x00400000)).1 _ (by decide),
   (C5_wraparound.1 _ (Reachable.init [0xAC000000] 0x00400000)).2 _ (by decide)⟩

/-- C6: with the halted flag set, step() returns status halted and the
whole machine state — registers, memory, pc, base, instruction memory,
step counter and halted flag — is exactly unchanged, so repeated calls
are idempotent no-ops. -/
theorem C6_halt_idempotent (s : SimpleMIPS) (h : s.halted = true) :
    (SimpleMIPS.step s).1.status = .halted ∧ (SimpleMIPS.step s).2 = s := by
  rw [step_halted_eq h]
  exact ⟨rfl, rfl⟩

/-- C6 witness: a concrete halted machine is returned untouched with
status halted. -/
theorem C6_halt_idempotent_witness :
    (SimpleMIPS.step
      ⟨List.replicate 32 0, [], 0x00400000, 0x00400000, [7], 3, true⟩).1.status =
        .halted ∧
    (SimpleMIPS.step
      ⟨List.replicate 32 0, [], 0x00400000, 0x00400000, [7], 3, true⟩).2 =
      ⟨List.replicate 32 0, [], 0x00400000, 0x00400000, [7], 3, true⟩ :=
  C6_halt_idempotent _ rfl

/-- C7: run(n) returns at most n results; every result before the last has
status ok, so no step follows a terminal one; a run whose machine is
already halted performs no step and returns the empty sequence; and when a
run that starts non-halted ends halted, the halting step's terminal result
is included as the last element of the sequence. -/
theorem C7_run_budget (n : Nat) (s : SimpleMIPS) :
    (s.run_n n).1.length ≤ n ∧
    (s.halted = true → (s.run_n n).1 = []) ∧
    (∀ i r, (s.run_n n).1.get? i = some r → i + 1 < (s.run_n n).1.length →
      r.status = .ok) ∧
    (s.halted = false → (s.run_n n).2.halted = true →
      ((s.run_n n).1.map (fun r => r.status)).getLast? =
        some Status.pc_out_of_range) := by
  induction n generalizing s with
  | zero =>
    refine ⟨Nat.le_refl 0, fun _ => rfl, ?_, ?_⟩
    · intro i r hi hlen
      simp [SimpleMIPS.run_n] at hi
    · intro h1 h2
      simp [SimpleMIPS.run_n, h1] at h2
  | succ n ih =>
    by_cases hh : s.halted
    · rw [run_n_halted hh]
      refine ⟨by simp, fun _ => rfl, ?_, ?_⟩
      · intro i r hi hlen
        simp at hi
      · intro h1 h2
        rw [hh] at h1
        simp at h1
    · have hh' : s.halted = false := by simpa using hh
      rw [run_n_succ_not_halted hh']
      obtain ⟨ih1, ih2, ih3, ih4⟩ := ih (SimpleMIPS.step s).2
      refine ⟨by simpa using Nat.succ_le_succ ih1, ?_, ?_, ?_⟩
      · intro hcontra
        rw [hh'] at hcontra
        simp at hcontra
      · intro i r hi hlen
        cases i with
        | zero =>
          have hi' : (SimpleMIPS.step s).1 = r := by simpa using hi
          have hlen' : 0 < ((SimpleMIPS.step s).2.run_n n).1.length := by
            simpa using hlen
          have hs2 : (SimpleMIPS.step s).2.halted = false := by
            by_contra hcon
            rw [run_n_halted (by simpa using hcon)] at hlen'
            simp at hlen'
          rcases step_ok_cases hh' with ⟨hok, _⟩ | ⟨_, hhalt⟩
          · rw [← hi']
            exact hok
          · rw [hhalt] at hs2
            simp at hs2
        | succ i =>
          exact ih3 i r (by simpa using hi) (by simpa using hlen)
      · intro _ h2
        by_cases hs2 : (SimpleMIPS.step s).2.halted
        · rw [run_n_halted hs2]
          rcases step_ok_cases hh' with ⟨_, hfalse⟩ | ⟨hoor, _⟩
          · rw [hfalse] at hs2
            simp at hs2
          · simp [hoor]
        · have hs2' : (SimpleMIPS.step s).2.halted = false := by simpa using hs2
          have h4 := ih4 hs2' h2
          rw [List.map_cons]
          cases hmr : ((SimpleMIPS.step s).2.run_n n).1.map (fun r => r.status) with
          | nil =>
            rw [hmr] at h4
            simp at h4
          | cons bst l =>
            rw [hmr] at h4
            rw [List.getLast?_cons_cons]
            exact h4

/-- C7 witness: with one nop-like word and budget 2, the run returns two
results (ok then pc-out-of-range), the non-final result is ok, the final
status is the terminal one, and a run on an already-halted machine returns
the empty sequence. -/
theorem C7_run_budget_witness :
    ((SimpleMIPS.init [0] 0).run_n 2).1.length ≤ 2 ∧
    (SimpleMIPS.step (SimpleMIPS.init [0] 0)).1.status = .ok ∧
    (((SimpleMIPS.init [0] 0).run_n 2).1.map (fun r => r.status)).getLast? =
      some Status.pc_out_of_range ∧
    ((⟨List.replicate 32 0, [], 0, 0, [0], 0, true⟩ : SimpleMIPS).run_n 3).1 = [] :=
  ⟨(C7_run_budget 2 (SimpleMIPS.init [0] 0)).1,
   (C7_run_budget 2 (SimpleMIPS.init [0] 0)).2.2.1 0 _ (by decide) (by decide),
   (C7_run_budget 2 (SimpleMIPS.init [0] 0)).2.2.2 rfl (by decide),
   (C7_run_budget 3 _).2.1 rfl⟩

/-- C8: the decoder's 5-bit field masking keeps every register index used
by step() in the range 0-31; every reachable machine keeps exactly 32
register slots, so Python's list indexing cannot fault; and a memory read
of an address no entry matches yields 0.  Every outcome of the (total)
step function is communicated through the result's status field. -/
theorem C8_step_safety :
    (∀ w o rs rt rd sh f m, decode w = .rtype o rs rt rd sh f m →
      rs < 32 ∧ rt < 32 ∧ rd < 32 ∧ sh < 32) ∧
    (∀ w o rs rt m, ∀ imm : Int, decode w = .itype o rs rt imm m →
      rs < 32 ∧ rt < 32) ∧
    (∀ s : SimpleMIPS, Reachable s → s.regs.length = 32) ∧
    (∀ (mm : List (Int × Nat)) (a : Int),
      mm.find? (fun p => p.1 == a) = none → memGet mm a = 0) := by
  refine ⟨?_, ?_, ?_, ?_⟩
  · intro w o rs rt rd sh f m h
    simp only [decode] at h
    split at h
    · injection h with h0 h1 h2 h3 h4 h5 h6
      subst h1
      subst h2
      subst h3
      subst h4
      refine ⟨?_, ?_, ?_, ?_⟩ <;> exact lt_of_le_of_lt Nat.and_le_right (by norm_num)
    · split at h
      · exact Decoded.noConfusion h
      · exact Decoded.noConfusion h
  · intro w o rs rt m imm h
    simp only [decode] at h
    split at h
    · exact Decoded.noConfusion h
    · split at h
      · exact Decoded.noConfusion h
      · injection h with h0 h1 h2 h3 h4
        subst h1
        subst h2
        exact ⟨lt_of_le_of_lt Nat.and_le_right (by norm_num),
          lt_of_le_of_lt Nat.and_le_right (by norm_num)⟩
  · intro s h
    exact (reachable_good h).1
  · intro mm a h
    unfold memGet
    rw [h]

/-- C8 witness: the all-ones R word 0x03FFFFFF decodes to indices 31; the
word 0xFFFFFFFF decodes to immediate format with indices 31; a fresh
machine has 32 register slots; reading absent address 5 yields 0. -/
theorem C8_step_safety_witness :
    (31 < 32 ∧ 31 < 32 ∧ 31 < 32 ∧ 31 < 32) ∧ (31 < 32 ∧ 31 < 32) ∧
    (SimpleMIPS.init [] 0).regs.length = 32 ∧ memGet [] 5 = 0 :=
  ⟨C8_step_safety.1 0x03FFFFFF 0 31 31 31 31 63 (.unknown_r 63) (by decide),
   C8_step_safety.2.1 0xFFFFFFFF 63 31 31 (.unknown_i 63) (-1) (by decide),
   C8_step_safety.2.2.1 _ (Reachable.init [] 0),
   C8_step_safety.2.2.2 [] 5 rfl⟩

/-- C9: a register-format instruction whose function code resolves to the
synthetic unknown mnemonic executes as a silent no-op from any reachable
non-halted state: registers and memory unchanged, pc advanced by 4, step
counter incremented, status ok. -/
theorem C9_unknown_r_noop (s : SimpleMIPS) (w o rs rt rd sh f c : Nat)
    (hr : Reachable s) (hh : s.halted = false)
    (hf : s.fetch_instr_at_pc s.pc = some w)
    (hd : decode w = .rtype o rs rt rd sh f (.unknown_r c)) :
    (SimpleMIPS.step s).1.status = .ok ∧
    (SimpleMIPS.step s).2.regs = s.regs ∧
    (SimpleMIPS.step s).2.mem = s.mem ∧
    (SimpleMIPS.step s).2.pc = s.pc + 4 ∧
    (SimpleMIPS.step s).2.step_count = s.step_count + 1 := by
  have hlen := (reachable_good hr).1
  have hz0 := (reachable_good hr).2.1
  have hne : s.regs ≠ [] := by
    intro he
    rw [he] at hlen
    simp at hlen
  have hset : s.regs.set 0 0 = s.regs := set_zero_of_getD hz0 hne
  rw [step_exec_eq hh hf]
  unfold stepExec
  rw [hd]
  exact ⟨rfl, hset, rfl, rfl, rfl⟩

/-- C9 witness: word 0x00000001 (opcode 0, funct 0x01 outside the table)
is a no-op ok step on a fresh machine. -/
theorem C9_unknown_r_noop_witness :
    (SimpleMIPS.step (SimpleMIPS.init [1] 0x00400000)).1.status = .ok ∧
    (SimpleMIPS.step (SimpleMIPS.init [1] 0x00400000)).2.regs =
      (SimpleMIPS.init [1] 0x00400000).regs ∧
    (SimpleMIPS.step (SimpleMIPS.init [1] 0x00400000)).2.mem =
      (SimpleMIPS.init [1] 0x00400000).mem ∧
    (SimpleMIPS.step (SimpleMIPS.init [1] 0x00400000)).2.pc =
      (SimpleMIPS.init [1] 0x00400000).pc + 4 ∧
    (SimpleMIPS.step (SimpleMIPS.init [1] 0x00400000)).2.step_count =
      (SimpleMIPS.init [1] 0x00400000).step_count + 1 :=
  C9_unknown_r_noop _ 1 0 0 0 0 0 1 1 (Reachable.init [1] 0x00400000) rfl
    (by decide) (by decide)

/-- C10: decode classifies a word as jump format only for the jump opcode,
so every decoded jump carries the recognized jump mnemonic, and step() can
never return the unknown-jump or unknown-type statuses: its status is
always ok, halted or pc-out-of-range. -/
theorem C10_no_unknown :
    (∀ (w o a : Nat) (m : Mnemonic), decode w = .jtype o a m → m = .j) ∧
    (∀ s : SimpleMIPS, (SimpleMIPS.step s).1.status ≠ .unknown_j ∧
      (SimpleMIPS.step s).1.status ≠ .unknown_type) := by
  constructor
  · intro w o a m h
    exact decode_jtype_mnemonic h
  · intro s
    by_cases hh : s.halted
    · rw [step_halted_eq hh]
      exact ⟨fun hcon => Status.noConfusion hcon, fun hcon => Status.noConfusion hcon⟩
    · have hh' : s.halted = false := by simpa using hh
      rcases step_ok_cases hh' with ⟨hok, _⟩ | ⟨hoor, _⟩
      · rw [hok]
        exact ⟨by decide, by decide⟩
      · rw [hoor]
        exact ⟨by decide, by decide⟩

/-- C10 witness: the jump word 0x08000010 decodes to the jump mnemonic,
and a concrete step never reports the unreachable statuses. -/
theorem C10_no_unknown_witness :
    Mnemonic.j = Mnemonic.j ∧
    ((SimpleMIPS.step (SimpleMIPS.init [] 0)).1.status ≠ .unknown_j ∧
      (SimpleMIPS.step (SimpleMIPS.init [] 0)).1.status ≠ .unknown_type) :=
  ⟨C10_no_unknown.1 0x08000010 2 0x10 .j (by decide),
   C10_no_unknown.2 (SimpleMIPS.init [] 0)⟩
